import Mathlib

/-
Shallow embedding of the linked-data-structure programs in
runtime-projects/proj-mk278b8c-20tlfpbu/dsa code: singly linked list
(menu_linked.c, linked_delete.c), doubly linked list (menu_DLL.c),
circular singly linked list (csll.c), circular doubly linked list (CDLL.c),
linked stack (linked_stack_menu.c) and linked queue (linked_queue_menu.c).

Raw C pointers are modelled by an explicit heap: a list of (node id, node)
pairs; a pointer is an Option Nat (none models NULL).  malloc is modelled
as always succeeding, handing out the next fresh id (the OVERFLOW branch
of a failed malloc is therefore never taken in the model).  A C statement
that dereferences a NULL or dangling pointer is undefined behaviour; the
corresponding operation in the model returns Option.none at that point.
-/

/-- Diagnostic printed by the C programs on a failed operation. -/
inductive Signal where
  | overflow
  | underflow
deriving DecidableEq, Repr

/-- Heap lookup: the node stored under id i, if any. -/
def hlookup {α : Type} (h : List (Nat × α)) (i : Nat) : Option α :=
  match h with
  | [] => none
  | (j, n) :: t => if j = i then some n else hlookup t i

/-- Heap store through a valid pointer: replace the node under id i by f of it. -/
def hmodify {α : Type} (h : List (Nat × α)) (i : Nat) (f : α → α) : List (Nat × α) :=
  match h with
  | [] => []
  | (j, n) :: t => if j = i then (j, f n) :: t else (j, n) :: hmodify t i f

/-- Heap deallocation, modelling free: drop the entry under id i. -/
def hremove {α : Type} (h : List (Nat × α)) (i : Nat) : List (Nat × α) :=
  match h with
  | [] => []
  | (j, n) :: t => if j = i then t else (j, n) :: hremove t i

/-- True when id i is allocated in the heap. -/
def hcontains {α : Type} (h : List (Nat × α)) (i : Nat) : Bool :=
  (hlookup h i).isSome

/-- Last element of a list, none for the empty list. -/
def lastOpt {α : Type} : List α → Option α
  | [] => none
  | [a] => some a
  | _ :: b :: t => lastOpt (b :: t)

/-- Node of the singly linked structures (struct Node with int info and one link). -/
structure SNode where
  info : Int
  link : Option Nat
deriving DecidableEq, Repr

/-- Node of the doubly linked structures (struct Node with int info, prev, next). -/
structure DNode where
  info : Int
  prev : Option Nat
  next : Option Nat
deriving DecidableEq, Repr

namespace MenuLinked

/-
menu_linked.c implements a linear NULL-terminated singly linked list whose
observable state is exactly the sequence of info fields from start; the
list of those values is the model state.
-/

/-- Loop of reversal in menu_linked.c: ptr holds the not yet reversed
suffix, prev the already reversed part; each iteration moves the head of
ptr onto prev (temp=ptr->link; ptr->link=prev; prev=ptr; ptr=temp). -/
def reversalLoop : List Int → List Int → List Int
  | [], prev => prev
  | x :: ptr, prev => reversalLoop ptr (x :: prev)

/-- reversal from menu_linked.c: in-place link reversal, start=prev at the end. -/
def reversal (start : List Int) : List Int :=
  reversalLoop start []

end MenuLinked

namespace LinkedDelete

/-
linked_delete.c: linear singly linked list, modelled by its sequence of
data fields.
-/

/-- Loop of deleteAtvalue in linked_delete.c, acting on the sublist after
the head (q starts at head->next, p trails one behind): walk while
q->data != value and q->next != NULL, then remove q iff q->data == value. -/
def deleteLoop (value : Int) : List Int → List Int
  | [] => []
  | [q] => if q = value then [] else [q]
  | q :: rest => if q = value then rest else q :: deleteLoop value rest

/-- deleteAtvalue from linked_delete.c.  The function initialises
q = head->next and immediately reads q->data, so it dereferences NULL
unless the list has at least two nodes; on shorter lists the result is
none (undefined behaviour). -/
def deleteAtvalue (head : List Int) (value : Int) : Option (List Int) :=
  match head with
  | h :: q :: rest => some (h :: deleteLoop value (q :: rest))
  | _ => none

end LinkedDelete

namespace LinkedStack

/-- State of linked_stack_menu.c: the heap of nodes, the top pointer and
the next fresh allocation id. -/
structure SState where
  heap : List (Nat × SNode)
  top : Option Nat
  fresh : Nat
deriving DecidableEq, Repr

/-- The initial stack of linked_stack_menu.c: top = NULL. -/
def emptyStack : SState := ⟨[], none, 0⟩

/-- push from linked_stack_menu.c: allocate a node with link=NULL, then
either make it the whole stack (top==NULL) or link it above the old top. -/
def push (s : SState) (item : Int) : SState :=
  let nid := s.fresh
  match s.top with
  | none => ⟨(nid, SNode.mk item none) :: s.heap, some nid, nid + 1⟩
  | some t => ⟨(nid, SNode.mk item (some t)) :: s.heap, some nid, nid + 1⟩

/-- pop from linked_stack_menu.c.  On an empty stack it prints UNDERFLOW
and leaves top unchanged: modelled as (s, none).  Otherwise it prints the
top value, moves top to its link and frees the node: modelled as
(new state, some value).  A dangling top would be undefined behaviour,
modelled by the outer none. -/
def pop (s : SState) : Option (SState × Option Int) :=
  match s.top with
  | none => some (s, none)
  | some t =>
    match hlookup s.heap t with
    | none => none
    | some n => some (⟨hremove s.heap t, n.link, s.fresh⟩, some n.info)

end LinkedStack

namespace LinkedQueue

/-- State of linked_queue_menu.c: the heap, the front and rear pointers
and the next fresh allocation id. -/
structure QState where
  heap : List (Nat × SNode)
  front : Option Nat
  rear : Option Nat
  fresh : Nat
deriving DecidableEq, Repr

/-- The initial queue of linked_queue_menu.c: front = rear = NULL. -/
def emptyQueue : QState := ⟨[], none, none, 0⟩

/-- enqueue from linked_queue_menu.c: allocate a node with link=NULL; if
front and rear are both NULL the node becomes both, otherwise
(*rear)->link=new and rear=new.  The rear dereference in the second
branch is undefined behaviour when rear is NULL, modelled as none. -/
def enqueue (q : QState) (item : Int) : Option QState :=
  let nid := q.fresh
  let heap1 := (nid, SNode.mk item none) :: q.heap
  if q.front = none ∧ q.rear = none then
    some ⟨heap1, some nid, some nid, nid + 1⟩
  else
    match q.rear with
    | some r =>
      some ⟨hmodify heap1 r (fun n => SNode.mk n.info (some nid)), q.front, some nid, nid + 1⟩
    | none => none

/-- dequeue from linked_queue_menu.c.  Both pointers NULL: prints
UNDERFLOW, no mutation.  front == rear: both become NULL (the node is not
freed).  Otherwise front advances along its link and the old front node
is freed.  The front dereference is undefined behaviour when front is
NULL but rear is not, modelled as none. -/
def dequeue (q : QState) : Option (QState × Option Signal) :=
  if q.front = none ∧ q.rear = none then
    some (q, some Signal.underflow)
  else
    match q.front with
    | none => none
    | some f =>
      if q.front = q.rear then
        some (⟨q.heap, none, none, q.fresh⟩, none)
      else
        match hlookup q.heap f with
        | none => none
        | some n => some (⟨hremove q.heap f, n.link, q.rear, q.fresh⟩, none)

/-- The chain of node ids reached from a pointer by following link fields
until NULL: o points at the first id, each id is allocated, each link
points at the next id, and the last link is NULL. -/
def chainB (h : List (Nat × SNode)) : Option Nat → List Nat → Bool
  | none, [] => true
  | none, _ :: _ => false
  | some _, [] => false
  | some i, j :: rest =>
    i == j &&
      match hlookup h i with
      | some n => chainB h n.link rest
      | none => false

/-- Well-formedness of a queue state: the ids reachable from front form a
duplicate-free NULL-terminated chain, rear is the last of them (NULL when
the chain is empty), and every allocated id is below the fresh counter. -/
def wfQ (q : QState) : Prop :=
  ∃ ids : List Nat,
    chainB q.heap q.front ids = true ∧
    ids.Nodup ∧
    q.rear = lastOpt ids ∧
    ∀ p ∈ q.heap, p.1 < q.fresh

end LinkedQueue

namespace CSLL

/-- State of csll.c: heap of one-link nodes, the start pointer and the
next fresh allocation id. -/
structure CS where
  heap : List (Nat × SNode)
  start : Option Nat
  fresh : Nat
deriving DecidableEq, Repr

/-- Loop of insert_beg in csll.c.  The for loop
for(ptr=start; ptr->link!=start; ptr=ptr->link) mutates the heap, start
and ptr in its body (ptr->link=new; new->link=start; start=new), and the
condition and increment reread the mutated fields, so the loop is
modelled as fuelled recursion on the full mutable state; none models a
dangling dereference or fuel exhaustion. -/
def insert_beg_loop (nid : Nat) : Nat → List (Nat × SNode) → Nat → Nat →
    Option (List (Nat × SNode) × Nat)
  | 0, _, _, _ => none
  | fuel + 1, h, start, ptr =>
    match hlookup h ptr with
    | none => none
    | some n =>
      if n.link = some start then some (h, start)
      else
        let h2 := hmodify h ptr (fun m => SNode.mk m.info (some nid))
        let h3 := hmodify h2 nid (fun m => SNode.mk m.info (some start))
        match hlookup h3 ptr with
        | none => none
        | some m =>
          match m.link with
          | none => none
          | some ptr2 => insert_beg_loop nid fuel h3 nid ptr2

/-- insert_beg from csll.c: allocate new with link=NULL; on an empty list
start=new and new->link=start (a one-node self ring); otherwise run the
for loop above.  The loop executes at most two iterations (after the
first, ptr equals the new node), so heap length plus two is enough fuel. -/
def insert_beg (s : CS) (item : Int) : Option CS :=
  let nid := s.fresh
  let heap1 := (nid, SNode.mk item none) :: s.heap
  match s.start with
  | none =>
    some ⟨hmodify heap1 nid (fun m => SNode.mk m.info (some nid)), some nid, nid + 1⟩
  | some st =>
    match insert_beg_loop nid (s.heap.length + 2) heap1 st st with
    | none => none
    | some (h2, st2) => some ⟨h2, some st2, nid + 1⟩

/-- Walk of delete_beg in csll.c: while(ptr->link!=NULL) ptr=ptr->link.
Returns the id whose link is NULL when the loop exits, none when the
pointer dangles or the fuel runs out before a NULL link is found. -/
def find_null_link (h : List (Nat × SNode)) : Nat → Nat → Option Nat
  | 0, _ => none
  | fuel + 1, ptr =>
    match hlookup h ptr with
    | none => none
    | some n =>
      match n.link with
      | none => some ptr
      | some nxt => find_null_link h fuel nxt

/-- delete_beg from csll.c: on an empty list print UNDERflow and return
start unchanged; otherwise walk while ptr->link!=NULL, set that node's
link to start->link, print start->info, and return start unchanged (the
head node is never freed and start itself is not reassigned). -/
def delete_beg (fuel : Nat) (s : CS) : Option (CS × Option Signal) :=
  match s.start with
  | none => some (s, some Signal.underflow)
  | some st =>
    match find_null_link s.heap fuel st with
    | none => none
    | some p =>
      match hlookup s.heap st with
      | none => none
      | some sn =>
        some (⟨hmodify s.heap p (fun m => SNode.mk m.info sn.link), some st, s.fresh⟩, none)

/-- Loop of traverse in csll.c: after the first node is printed, follow
link printing each node until the pointer equals start again; a NULL or
dangling pointer on the way is a dereference fault (none). -/
def traverse_from (h : List (Nat × SNode)) (st : Nat) : Nat → Option Nat → Option (List Int)
  | 0, _ => none
  | _ + 1, none => none
  | fuel + 1, some p =>
    if p = st then some []
    else
      match hlookup h p with
      | none => none
      | some n => (traverse_from h st fuel n.link).map (fun l => n.info :: l)

/-- traverse from csll.c: empty list prints nothing (modelled as the
empty sequence); otherwise print start->info then walk until the pointer
comes back to start. -/
def traverse (s : CS) : Option (List Int) :=
  match s.start with
  | none => some []
  | some st =>
    match hlookup s.heap st with
    | none => none
    | some n => (traverse_from s.heap st (s.heap.length + 1) n.link).map (fun l => n.info :: l)

/-- True when every allocated node's link is non-NULL and points at an
allocated node: the defining shape of a well-formed ring heap. -/
def all_links_closed (h : List (Nat × SNode)) : Bool :=
  h.all (fun e =>
    match e.2.link with
    | none => false
    | some t => hcontains h t)

/-- A concrete well-formed one-node ring holding 5. -/
def ring1 : CS := ⟨[(0, SNode.mk 5 (some 0))], some 0, 1⟩

/-- A concrete well-formed two-node ring holding 10, 20. -/
def ring2 : CS := ⟨[(0, SNode.mk 10 (some 1)), (1, SNode.mk 20 (some 0))], some 0, 2⟩

end CSLL

namespace CDLL

/-- State of CDLL.c: heap of two-link nodes, the start pointer and the
next fresh allocation id. -/
structure CState where
  heap : List (Nat × DNode)
  start : Option Nat
  fresh : Nat
deriving DecidableEq, Repr

/-- The empty circular doubly linked list: start = NULL. -/
def empty : CState := ⟨[], none, 0⟩

/-- insert_beg from CDLL.c: allocate new with next=NULL and prev=NULL; if
start==NULL the node merely becomes start (its links stay NULL);
otherwise ptr=start->prev, ptr->next=new, new->prev=ptr, new->next=start,
start->prev=new, start=new.  Field writes are applied one at a time so
aliased pointers (for example ptr==start in a one-node ring) behave as in
the C. -/
def insert_beg (s : CState) (item : Int) : Option CState :=
  let nid := s.fresh
  let heap1 := (nid, DNode.mk item none none) :: s.heap
  match s.start with
  | none => some ⟨heap1, some nid, nid + 1⟩
  | some st =>
    match hlookup heap1 st with
    | none => none
    | some sn =>
      match sn.prev with
      | none => none
      | some p =>
        let h2 := hmodify heap1 p (fun n => DNode.mk n.info n.prev (some nid))
        let h3 := hmodify h2 nid (fun n => DNode.mk n.info (some p) n.next)
        let h4 := hmodify h3 nid (fun n => DNode.mk n.info n.prev (some st))
        let h5 := hmodify h4 st (fun n => DNode.mk n.info (some nid) n.next)
        some ⟨h5, some nid, nid + 1⟩

/-- delete_end from CDLL.c: on an empty list it prints OVERFLOW (the
allocation-failure word, not UNDERFLOW) and returns start unchanged;
otherwise ptr=start->prev, print ptr->info, ptr->prev->next=start,
start->prev=ptr->prev, free(ptr), returning start unchanged. -/
def delete_end (s : CState) : Option (CState × Option Signal) :=
  match s.start with
  | none => some (s, some Signal.overflow)
  | some st =>
    match hlookup s.heap st with
    | none => none
    | some sn =>
      match sn.prev with
      | none => none
      | some p =>
        match hlookup s.heap p with
        | none => none
        | some pn =>
          match pn.prev with
          | none => none
          | some pp =>
            let h2 := hmodify s.heap pp (fun n => DNode.mk n.info n.prev (some st))
            let h3 := hmodify h2 st (fun n => DNode.mk n.info (some pp) n.next)
            some (⟨hremove h3 p, some st, s.fresh⟩, none)

/-- Follow the next field k times from a pointer; none when a NULL or
dangling pointer is reached before the k steps are done. -/
def follow_next (h : List (Nat × DNode)) (o : Option Nat) : Nat → Option Nat
  | 0 => o
  | k + 1 =>
    match o with
    | none => none
    | some i =>
      match hlookup h i with
      | none => none
      | some n => follow_next h n.next k

end CDLL

namespace DLL

/-- State of menu_DLL.c: heap of two-link nodes, the start pointer and
the next fresh allocation id. -/
structure DState where
  heap : List (Nat × DNode)
  start : Option Nat
  fresh : Nat
deriving DecidableEq, Repr

/-- delete_beg from menu_DLL.c: on an empty list print UNDERFLOW and
return start unchanged; otherwise ptr=start, print ptr->info,
start=start->next, start->prev=NULL, free(ptr).  When the list holds one
node the new start is NULL, so start->prev=NULL writes through NULL:
undefined behaviour, modelled as none. -/
def delete_beg (s : DState) : Option (DState × Option Signal) :=
  match s.start with
  | none => some (s, some Signal.underflow)
  | some st =>
    match hlookup s.heap st with
    | none => none
    | some n =>
      match n.next with
      | none => none
      | some s2 =>
        let h2 := hmodify s.heap s2 (fun m => DNode.mk m.info none m.next)
        some (⟨hremove h2 st, some s2, s.fresh⟩, none)

/-- Loop of insert_LOC in menu_DLL.c: while(i<loc && ptr!=NULL) with body
ptr=ptr1; ptr=ptr->next; i++.  ptr1 is start for the whole loop, so every
iteration rereads start->next into ptr; the initial ptr is the garbage
value of the uninitialised variable.  The loop runs at most loc-i times,
so it is given loc as structural fuel (the i<loc test inside keeps the
semantics exact).  Returns the final ptr; none when the body dereferences
a dangling start id. -/
def insert_LOC_walk (h : List (Nat × DNode)) (st : Nat) : Nat → Nat → Nat → Option Nat →
    Option (Option Nat)
  | 0, _, _, ptr => some ptr
  | fuel + 1, i, loc, ptr =>
    if i < loc then
      match ptr with
      | none => some none
      | some _ =>
        match hlookup h st with
        | none => none
        | some n => insert_LOC_walk h st fuel (i + 1) loc n.next
    else some ptr

/-- insert_LOC from menu_DLL.c.  garbage is the indeterminate initial
value of the uninitialised local ptr.  After the walk, ptr1 still equals
start, so the location-not-found branch (ptr1==NULL) and the middle
splice branch (ptr1!=start) are translated faithfully but are dead: the
ptr1==start branch always runs, making the new node the head.  The Bool
in the result records whether location not found was printed. -/
def insert_LOC (s : DState) (item : Int) (loc : Nat) (garbage : Option Nat) :
    Option (DState × Bool) :=
  let nid := s.fresh
  let heap1 := (nid, DNode.mk item none none) :: s.heap
  match s.start with
  | none => some (⟨heap1, some nid, nid + 1⟩, false)
  | some st =>
    match insert_LOC_walk heap1 st loc 1 loc garbage with
    | none => none
    | some ptrFinal =>
      match (some st : Option Nat) with
      | none => some (⟨heap1, some st, nid + 1⟩, true)
      | some p1 =>
        if p1 = st then
          let h2 := hmodify heap1 nid (fun n => DNode.mk n.info n.prev (some st))
          let h3 := hmodify h2 st (fun n => DNode.mk n.info (some nid) n.next)
          some (⟨h3, some nid, nid + 1⟩, false)
        else
          match ptrFinal with
          | none => none
          | some pf =>
            let h2 := hmodify heap1 pf (fun n => DNode.mk n.info n.prev (some nid))
            let h3 := hmodify h2 nid (fun n => DNode.mk n.info (some pf) n.next)
            let h4 := hmodify h3 nid (fun n => DNode.mk n.info n.prev (some p1))
            let h5 := hmodify h4 p1 (fun n => DNode.mk n.info (some nid) n.next)
            some (⟨h5, s.start, nid + 1⟩, false)

/-- foreward_traversal from menu_DLL.c, as the sequence of info fields
from start following next to NULL (fuelled; none when the walk dangles or
runs out of fuel). -/
def foreward_traversal (h : List (Nat × DNode)) : Option Nat → Nat → Option (List Int)
  | none, _ => some []
  | some _, 0 => none
  | some i, fuel + 1 =>
    match hlookup h i with
    | none => none
    | some n => (foreward_traversal h n.next fuel).map (fun l => n.info :: l)

/-- A concrete singleton doubly linked list holding 5. -/
def oneDLL : DState := ⟨[(0, DNode.mk 5 none none)], some 0, 1⟩

/-- A concrete doubly linked list holding 10, 20, 30. -/
def threeDLL : DState :=
  ⟨[(0, DNode.mk 10 none (some 1)), (1, DNode.mk 20 (some 0) (some 2)),
    (2, DNode.mk 30 (some 1) none)], some 0, 3⟩

end DLL

/-! Helper lemmas about the heap model. -/

theorem hlookup_mem {α : Type} {h : List (Nat × α)} {i : Nat} {n : α}
    (hl : hlookup h i = some n) : (i, n) ∈ h := by
  induction h with
  | nil => simp [hlookup] at hl
  | cons e t ih =>
    obtain ⟨j, m⟩ := e
    by_cases hj : j = i
    · subst hj
      simp [hlookup] at hl
      simp [hl]
    · simp [hlookup, hj] at hl
      exact List.mem_cons_of_mem _ (ih hl)

theorem hlookup_hmodify {α : Type} (i k : Nat) (f : α → α) :
    ∀ h : List (Nat × α),
      hlookup (hmodify h i f) k =
        if i = k then (hlookup h i).map f else hlookup h k := by
  intro h
  induction h with
  | nil => simp [hmodify, hlookup]
  | cons e t ih =>
    obtain ⟨j, m⟩ := e
    by_cases hj : j = i
    · subst hj
      by_cases hk : j = k
      · subst hk
        simp [hmodify, hlookup]
      · simp [hmodify, hlookup, hk]
    · by_cases hk : j = k
      · subst hk
        have hij : ¬(i = j) := fun hh => hj hh.symm
        simp [hmodify, hlookup, hj, hij]
      · simp [hmodify, hlookup, hj, hk, ih]

theorem hlookup_hremove_ne {α : Type} (i k : Nat) (hne : k ≠ i) :
    ∀ h : List (Nat × α), hlookup (hremove h i) k = hlookup h k := by
  intro h
  induction h with
  | nil => simp [hremove]
  | cons e t ih =>
    obtain ⟨j, m⟩ := e
    by_cases hj : j = i
    · subst hj
      simp [hremove, hlookup, (Ne.symm hne : j ≠ k)]
    · simp [hremove, hlookup, hj, ih]

theorem hmodify_keys {α : Type} (P : Nat → Prop) (i : Nat) (f : α → α)
    (h : List (Nat × α)) :
    (∀ p ∈ h, P p.1) → ∀ p ∈ hmodify h i f, P p.1 := by
  induction h with
  | nil =>
    intro _ p hp
    simp [hmodify] at hp
  | cons e t ih =>
    obtain ⟨j, m⟩ := e
    intro hall p hp
    by_cases hj : j = i
    · subst hj
      simp only [hmodify, if_pos rfl] at hp
      rcases List.mem_cons.mp hp with hp | hp
      · subst hp
        exact hall (j, m) (List.mem_cons_self _ _)
      · exact hall p (List.mem_cons_of_mem _ hp)
    · simp only [hmodify, if_neg hj] at hp
      rcases List.mem_cons.mp hp with hp | hp
      · subst hp
        exact hall (j, m) (List.mem_cons_self _ _)
      · exact ih (fun r hr => hall r (List.mem_cons_of_mem _ hr)) p hp

theorem hremove_subset {α : Type} (i : Nat) :
    ∀ (h : List (Nat × α)) (p : Nat × α), p ∈ hremove h i → p ∈ h := by
  intro h
  induction h with
  | nil =>
    intro p hp
    simp [hremove] at hp
  | cons e t ih =>
    obtain ⟨j, m⟩ := e
    intro p hp
    by_cases hj : j = i
    · subst hj
      simp only [hremove, if_pos rfl] at hp
      exact List.mem_cons_of_mem _ hp
    · simp only [hremove, if_neg hj] at hp
      rcases List.mem_cons.mp hp with hp | hp
      · simp [hp]
      · exact List.mem_cons_of_mem _ (ih p hp)

/-! Lemmas about the circular singly linked list walk of delete_beg. -/

theorem find_null_link_closed (h : List (Nat × SNode))
    (hc : CSLL.all_links_closed h = true) :
    ∀ fuel ptr, hcontains h ptr = true → CSLL.find_null_link h fuel ptr = none := by
  intro fuel
  induction fuel with
  | zero =>
    intro ptr _
    rfl
  | succ f ih =>
    intro ptr hp
    rcases hn : hlookup h ptr with _ | n
    · simp [hcontains, hn] at hp
    · have hmem := hlookup_mem hn
      have hcl := (List.all_eq_true.mp hc) _ hmem
      rcases hl : n.link with _ | nxt
      · rw [CSLL.all_links_closed] at hc
        simp only [hl] at hcl
        exact absurd hcl (by simp)
      · simp only [CSLL.find_null_link, hn, hl]
        simp only [hl] at hcl
        exact ih nxt hcl

/-! Lemmas about the singly linked list functions of menu_linked.c and
linked_delete.c. -/

theorem reversalLoop_eq (l : List Int) :
    ∀ acc : List Int, MenuLinked.reversalLoop l acc = l.reverse ++ acc := by
  induction l with
  | nil => intro acc; simp [MenuLinked.reversalLoop]
  | cons x t ih => intro acc; simp [MenuLinked.reversalLoop, ih]

theorem deleteLoop_eq_erase (v : Int) :
    ∀ t : List Int, LinkedDelete.deleteLoop v t = t.erase v := by
  intro t
  induction t with
  | nil => rfl
  | cons q rest ih =>
    cases rest with
    | nil =>
      by_cases hq : q = v <;> simp [LinkedDelete.deleteLoop, List.erase_cons, hq]
    | cons r rest2 =>
      by_cases hq : q = v <;> simp [LinkedDelete.deleteLoop, List.erase_cons, hq, ih]

/-! Claim theorems. -/

/-- C1: the claim says that after any sequence of operations the circular
ring invariant holds, and in particular that inserting into an empty
circular doubly linked list yields a one-node self ring whose next and
prev point to itself.  The code refutes it: insert_beg of CDLL.c applied
to the empty list leaves the new node with next = NULL and prev = NULL,
so following next from head size-many (here one) steps reaches NULL, not
head. -/
theorem cdll_insert_beg_empty_not_ring :
    ∃ s : CDLL.CState, CDLL.insert_beg CDLL.empty 7 = some s ∧
      s.start = some 0 ∧
      hlookup s.heap 0 = some (DNode.mk 7 none none) ∧
      CDLL.follow_next s.heap s.start 1 = none :=
  ⟨_, rfl, rfl, rfl, rfl⟩

/-- C2: the claim says every delete-type operation on an empty container
signals Underflow, mutates nothing and is not fatal.  The code refutes
the signal: delete_end of CDLL.c on the empty list prints OVERFLOW (the
allocation-failure word), though it indeed performs no mutation and
returns to the menu loop. -/
theorem cdll_delete_end_empty_signals_overflow :
    CDLL.delete_end CDLL.empty = some (CDLL.empty, some Signal.overflow) :=
  rfl

/-- C3: the claim says a delete on a one-element container yields the
empty container and never reaches a NULL dereference.  The code refutes
it: delete_beg of menu_DLL.c on a singleton sets start=start->next=NULL
and then executes start->prev=NULL, a write through NULL (undefined
behaviour, modelled as none). -/
theorem dll_delete_beg_singleton_crashes :
    DLL.delete_beg DLL.oneDLL = none :=
  rfl

/-- C4: the claim says insertFront on a non-empty circular singly linked
list [v1, ..., vn] yields traversal [x, v1, ..., vn].  The code refutes
it: on a one-node ring the for loop of insert_beg in csll.c exits before
its first iteration (ptr->link == start holds immediately), so the new
node is allocated but never linked and the traversal is unchanged. -/
theorem csll_insert_beg_one_ring_noop :
    ∃ s : CSLL.CS, CSLL.insert_beg CSLL.ring1 7 = some s ∧
      CSLL.traverse s = some [5] ∧ s.start = CSLL.ring1.start :=
  ⟨_, rfl, rfl, rfl⟩

/-- C5: the claim says deleteFront of the circular singly linked list
terminates within size steps on any well-formed non-empty ring.  The
code refutes it: the walk of delete_beg in csll.c runs while
ptr->link != NULL, and in a ring whose links are all non-NULL and
allocated the walk finds no NULL link under any fuel bound, so the
operation never completes. -/
theorem csll_delete_beg_never_terminates (s : CSLL.CS) (st : Nat)
    (h1 : s.start = some st) (h2 : CSLL.all_links_closed s.heap = true)
    (h3 : hcontains s.heap st = true) :
    ∀ fuel, CSLL.delete_beg fuel s = none := by
  intro fuel
  simp [CSLL.delete_beg, h1, find_null_link_closed s.heap h2 fuel st h3]

/-- Witness for C5 at a concrete two-node ring holding 10, 20 and fuel 5. -/
theorem csll_delete_beg_never_terminates_witness :
    CSLL.delete_beg 5 CSLL.ring2 = none :=
  csll_delete_beg_never_terminates CSLL.ring2 0 rfl (by decide) (by decide) 5

/-- C6: the claim says insert_LOC of menu_DLL.c splices at interior
locations and signals LocationNotFound past the end.  The code refutes
it: on the list [10, 20, 30] with loc = 2 (whatever garbage the
uninitialised ptr starts with) the walk never advances ptr1, the
ptr1==start branch runs, and the result is a front insert [99, 10, 20,
30] with no location-not-found report. -/
theorem dll_insert_LOC_always_front (garbage : Option Nat) :
    ∃ s : DLL.DState,
      DLL.insert_LOC DLL.threeDLL 99 2 garbage = some (s, false) ∧
      DLL.foreward_traversal s.heap s.start 10 = some [99, 10, 20, 30] := by
  cases garbage with
  | none => exact ⟨_, rfl, rfl⟩
  | some g => exact ⟨_, rfl, rfl⟩

/-- Witness for C6 with the garbage pointer instantiated to NULL. -/
theorem dll_insert_LOC_always_front_witness :
    ∃ s : DLL.DState,
      DLL.insert_LOC DLL.threeDLL 99 2 none = some (s, false) ∧
      DLL.foreward_traversal s.heap s.start 10 = some [99, 10, 20, 30] :=
  dll_insert_LOC_always_front none

/-- C7: reversal of the singly linked list of menu_linked.c is an
involution on every non-empty list, and a single reversal yields the
values in reversed order. -/
theorem sll_reversal_involution (L : List Int) (h : L ≠ []) :
    MenuLinked.reversal (MenuLinked.reversal L) = L ∧
      MenuLinked.reversal L = L.reverse := by
  have hrev : ∀ M : List Int, MenuLinked.reversal M = M.reverse := by
    intro M
    simp [MenuLinked.reversal, reversalLoop_eq]
  exact ⟨by simp [hrev], hrev L⟩

/-- Witness for C7 at the concrete list [1, 2, 3]. -/
theorem sll_reversal_involution_witness :
    MenuLinked.reversal (MenuLinked.reversal [1, 2, 3]) = [1, 2, 3] ∧
      MenuLinked.reversal [1, 2, 3] = List.reverse [1, 2, 3] :=
  sll_reversal_involution [1, 2, 3] (by decide)

/-- C8: from the empty linked stack, push 1, push 2, push 3 followed by
three pops yields 3, 2, 1 in that order and leaves the stack empty; a
fourth pop signals Underflow (prints UNDERFLOW, modelled as value none)
and leaves the stack unchanged. -/
theorem stack_lifo_scenario :
    ∃ s2 s1 s0 : LinkedStack.SState,
      LinkedStack.pop
        (LinkedStack.push (LinkedStack.push (LinkedStack.push LinkedStack.emptyStack 1) 2) 3) =
        some (s2, some 3) ∧
      LinkedStack.pop s2 = some (s1, some 2) ∧
      LinkedStack.pop s1 = some (s0, some 1) ∧
      s0.top = none ∧ s0.heap = [] ∧
      LinkedStack.pop s0 = some (s0, none) :=
  ⟨_, _, _, rfl, rfl, rfl, rfl, rfl, rfl⟩

/-- C10: deleteAtvalue of linked_delete.c on a list of at least two nodes
never removes the head: the result keeps the head value and erases from
the tail exactly the first occurrence of the value (nothing when the
value is absent from the tail). -/
theorem deleteAtvalue_preserves_head (h v : Int) (t : List Int) (hne : t ≠ []) :
    LinkedDelete.deleteAtvalue (h :: t) v = some (h :: t.erase v) := by
  cases t with
  | nil => exact absurd rfl hne
  | cons q rest =>
    simp [LinkedDelete.deleteAtvalue, deleteLoop_eq_erase]

/-- Witness for C10 on the list built by main of linked_delete.c,
deleting value 89: the head 23 survives and only the 89 is removed. -/
theorem deleteAtvalue_preserves_head_witness :
    LinkedDelete.deleteAtvalue [23, 67, 89, 99] 89 = some (23 :: List.erase [67, 89, 99] 89) :=
  deleteAtvalue_preserves_head 23 89 [67, 89, 99] (by decide)

/-! Lemmas about lastOpt and the queue chain predicate. -/

theorem lastOpt_cons_cons {α : Type} (x y : α) (t : List α) :
    lastOpt (x :: y :: t) = lastOpt (y :: t) :=
  rfl

theorem lastOpt_mem {α : Type} : ∀ (l : List α) {a : α}, lastOpt l = some a → a ∈ l := by
  intro l
  induction l with
  | nil =>
    intro a hl
    simp [lastOpt] at hl
  | cons x t ih =>
    intro a hl
    cases t with
    | nil =>
      simp [lastOpt] at hl
      simp [hl]
    | cons y t2 =>
      rw [lastOpt_cons_cons] at hl
      exact List.mem_cons_of_mem _ (ih hl)

theorem lastOpt_append_single {α : Type} (a : α) :
    ∀ l : List α, lastOpt (l ++ [a]) = some a := by
  intro l
  induction l with
  | nil => rfl
  | cons x t ih =>
    cases t with
    | nil => rfl
    | cons y t2 => exact ih

theorem lastOpt_cons_some {α : Type} : ∀ (t : List α) (x : α), ∃ a, lastOpt (x :: t) = some a := by
  intro t
  induction t with
  | nil => exact fun x => ⟨x, rfl⟩
  | cons y t2 ih => exact fun x => ih y

theorem chainB_none_nil (h : List (Nat × SNode)) (ids : List Nat)
    (hc : LinkedQueue.chainB h none ids = true) : ids = [] := by
  cases ids with
  | nil => rfl
  | cons j rest => simp [LinkedQueue.chainB] at hc

theorem chainB_cons_inv {h : List (Nat × SNode)} {i j : Nat} {rest : List Nat}
    (hc : LinkedQueue.chainB h (some i) (j :: rest) = true) :
    i = j ∧ ∃ n, hlookup h i = some n ∧ LinkedQueue.chainB h n.link rest = true := by
  simp only [LinkedQueue.chainB, Bool.and_eq_true, beq_iff_eq] at hc
  obtain ⟨hij, hrest⟩ := hc
  rcases hn : hlookup h i with _ | n
  · rw [hn] at hrest
    simp at hrest
  · rw [hn] at hrest
    exact ⟨hij, n, rfl, hrest⟩

theorem chainB_mem_lookup {h : List (Nat × SNode)} :
    ∀ {ids : List Nat} {o : Option Nat}, LinkedQueue.chainB h o ids = true →
      ∀ i ∈ ids, ∃ n, hlookup h i = some n := by
  intro ids
  induction ids with
  | nil =>
    intro o _ i hi
    simp at hi
  | cons j rest ih =>
    intro o hc i hi
    cases o with
    | none => simp [LinkedQueue.chainB] at hc
    | some i0 =>
      obtain ⟨hij, n, hn, hrest⟩ := chainB_cons_inv hc
      subst hij
      rcases List.mem_cons.mp hi with hi | hi
      · subst hi
        exact ⟨n, hn⟩
      · exact ih hrest i hi

theorem chainB_det (h : List (Nat × SNode)) :
    ∀ (ids ids' : List Nat) (o : Option Nat),
      LinkedQueue.chainB h o ids = true → LinkedQueue.chainB h o ids' = true →
      ids = ids' := by
  intro ids
  induction ids with
  | nil =>
    intro ids' o h1 h2
    cases o with
    | none => exact (chainB_none_nil h ids' h2).symm
    | some i => simp [LinkedQueue.chainB] at h1
  | cons j rest ih =>
    intro ids' o h1 h2
    cases o with
    | none => simp [LinkedQueue.chainB] at h1
    | some i =>
      cases ids' with
      | nil => simp [LinkedQueue.chainB] at h2
      | cons j' rest' =>
        obtain ⟨e1, n1, hn1, hc1⟩ := chainB_cons_inv h1
        obtain ⟨e2, n2, hn2, hc2⟩ := chainB_cons_inv h2
        have hn12 : n1 = n2 := by
          rw [hn1] at hn2
          exact Option.some.inj hn2
        subst hn12
        have hj : j = j' := e1.symm.trans e2
        subst hj
        exact congrArg (j :: ·) (ih rest' n1.link hc1 hc2)

theorem chainB_extend (h : List (Nat × SNode)) (nid r : Nat) (item : Int)
    (hfresh : ∀ p ∈ h, p.1 < nid) :
    ∀ (ids : List Nat) (o : Option Nat),
      LinkedQueue.chainB h o ids = true → ids.Nodup → lastOpt ids = some r →
      LinkedQueue.chainB
        (hmodify ((nid, SNode.mk item none) :: h) r (fun n => SNode.mk n.info (some nid)))
        o (ids ++ [nid]) = true := by
  intro ids
  induction ids with
  | nil =>
    intro o _ _ hl
    simp [lastOpt] at hl
  | cons j rest ih =>
    intro o hc hnd hl
    cases o with
    | none => simp [LinkedQueue.chainB] at hc
    | some i =>
      obtain ⟨hij, n, hn, hrest⟩ := chainB_cons_inv hc
      subst hij
      have hi_lt : i < nid := hfresh _ (hlookup_mem hn)
      cases rest with
      | nil =>
        simp [lastOpt] at hl
        subst hl
        have hnl : n.link = none := by
          cases hx : n.link with
          | none => rfl
          | some x =>
            rw [hx] at hrest
            simp [LinkedQueue.chainB] at hrest
        have hlook_i :
            hlookup (hmodify ((nid, SNode.mk item none) :: h) i
                (fun n => SNode.mk n.info (some nid))) i =
              some (SNode.mk n.info (some nid)) := by
          rw [hlookup_hmodify, if_pos rfl]
          simp [hlookup, Nat.ne_of_gt hi_lt, hn]
        have hlook_nid :
            hlookup (hmodify ((nid, SNode.mk item none) :: h) i
                (fun n => SNode.mk n.info (some nid))) nid =
              some (SNode.mk item none) := by
          rw [hlookup_hmodify, if_neg (Nat.ne_of_lt hi_lt)]
          simp [hlookup]
        simp [LinkedQueue.chainB, hlook_i, hlook_nid]
      | cons k rest2 =>
        rw [lastOpt_cons_cons] at hl
        have hrm : r ∈ k :: rest2 := lastOpt_mem _ hl
        have hinr : i ∉ k :: rest2 := (List.nodup_cons.mp hnd).1
        have hir : i ≠ r := fun he => hinr (he ▸ hrm)
        have hlook_i :
            hlookup (hmodify ((nid, SNode.mk item none) :: h) r
                (fun n => SNode.mk n.info (some nid))) i = some n := by
          rw [hlookup_hmodify, if_neg (Ne.symm hir)]
          simp [hlookup, Nat.ne_of_gt hi_lt, hn]
        have hrec := ih n.link hrest (List.nodup_cons.mp hnd).2 hl
        simp only [List.cons_append, LinkedQueue.chainB, hlook_i, beq_self_eq_true,
          Bool.true_and]
        exact hrec

theorem chainB_hremove (h : List (Nat × SNode)) (f : Nat) :
    ∀ (ids : List Nat) (o : Option Nat),
      LinkedQueue.chainB h o ids = true → f ∉ ids →
      LinkedQueue.chainB (hremove h f) o ids = true := by
  intro ids
  induction ids with
  | nil =>
    intro o hc _
    cases o with
    | none => rfl
    | some i => simp [LinkedQueue.chainB] at hc
  | cons j rest ih =>
    intro o hc hf
    cases o with
    | none => simp [LinkedQueue.chainB] at hc
    | some i =>
      obtain ⟨hij, n, hn, hrest⟩ := chainB_cons_inv hc
      subst hij
      have hne : i ≠ f := fun he => hf (he ▸ List.mem_cons_self _ _)
      have hlook : hlookup (hremove h f) i = some n := by
        rw [hlookup_hremove_ne f i hne]
        exact hn
      have hrec := ih n.link hrest (fun hm => hf (List.mem_cons_of_mem _ hm))
      simp [LinkedQueue.chainB, hlook, hrec]

/-- C9: for the linked queue of linked_queue_menu.c, enqueue and dequeue
preserve well-formedness; under well-formedness front and rear point at
the same node exactly when the queue holds one element, and both are
absent exactly when it is empty; enqueue into an empty queue sets both
front and rear to the new node; dequeue of the last remaining element
makes both front and rear absent, leaving no dangling rear. -/
theorem queue_bracket_invariant (q : LinkedQueue.QState) (item : Int)
    (hwf : LinkedQueue.wfQ q) :
    (∃ qe, LinkedQueue.enqueue q item = some qe ∧ LinkedQueue.wfQ qe) ∧
    (∃ qd sig, LinkedQueue.dequeue q = some (qd, sig) ∧ LinkedQueue.wfQ qd) ∧
    (∀ ids, LinkedQueue.chainB q.heap q.front ids = true →
      (((∃ x, q.front = some x ∧ q.rear = some x) ↔ ids.length = 1) ∧
        ((q.front = none ∧ q.rear = none) ↔ ids = []))) ∧
    ((q.front = none ∧ q.rear = none) →
      LinkedQueue.enqueue q item =
        some ⟨(q.fresh, SNode.mk item none) :: q.heap, some q.fresh, some q.fresh,
          q.fresh + 1⟩) ∧
    (∀ ids, LinkedQueue.chainB q.heap q.front ids = true → ids.length = 1 →
      ∃ qd, LinkedQueue.dequeue q = some (qd, none) ∧ qd.front = none ∧ qd.rear = none) := by
  obtain ⟨ids, hch, hnd, hrear, hfr⟩ := hwf
  rcases hf : q.front with _ | f
  · rw [hf] at hch
    have hids : ids = [] := chainB_none_nil _ _ hch
    subst hids
    have hr : q.rear = none := by simpa [lastOpt] using hrear
    refine ⟨?_, ?_, ?_, ?_, ?_⟩
    · refine ⟨⟨(q.fresh, SNode.mk item none) :: q.heap, some q.fresh, some q.fresh,
        q.fresh + 1⟩, by simp [LinkedQueue.enqueue, hf, hr], ?_⟩
      refine ⟨[q.fresh], ?_, by simp, rfl, ?_⟩
      · simp [LinkedQueue.chainB, hlookup]
      · intro p hp
        rcases List.mem_cons.mp hp with hp | hp
        · subst hp
          exact Nat.lt_succ_self _
        · exact Nat.lt_succ_of_lt (hfr p hp)
    · exact ⟨q, some Signal.underflow, by simp [LinkedQueue.dequeue, hf, hr],
        ⟨[], by rw [hf]; exact hch, hnd, hrear, hfr⟩⟩
    · intro ids' hch'
      have hids' : ids' = [] := chainB_none_nil _ _ hch'
      subst hids'
      constructor
      · refine iff_of_false ?_ (by simp)
        rintro ⟨x, hx, -⟩
        simp at hx
      · exact iff_of_true ⟨rfl, hr⟩ rfl
    · intro _
      simp [LinkedQueue.enqueue, hf, hr]
    · intro ids' hch' hlen
      have hids' : ids' = [] := chainB_none_nil _ _ hch'
      subst hids'
      simp at hlen
  · rw [hf] at hch
    cases ids with
    | nil => simp [LinkedQueue.chainB] at hch
    | cons j rest =>
      obtain ⟨hfj, n, hn, hrest⟩ := chainB_cons_inv hch
      subst hfj
      have hid_lt : ∀ a ∈ f :: rest, a < q.fresh := by
        intro a ha
        obtain ⟨m, hm⟩ := chainB_mem_lookup hch a ha
        exact hfr _ (hlookup_mem hm)
      have hbase : ∀ p ∈ (q.fresh, SNode.mk item none) :: q.heap, p.1 < q.fresh + 1 := by
        intro p hp
        rcases List.mem_cons.mp hp with hp | hp
        · subst hp
          exact Nat.lt_succ_self _
        · exact Nat.lt_succ_of_lt (hfr p hp)
      cases rest with
      | nil =>
        have hr : q.rear = some f := by simpa [lastOpt] using hrear
        have hf_lt : f < q.fresh := hid_lt f (List.mem_cons_self _ _)
        refine ⟨?_, ?_, ?_, ?_, ?_⟩
        · refine ⟨⟨hmodify ((q.fresh, SNode.mk item none) :: q.heap) f
              (fun m => SNode.mk m.info (some q.fresh)), some f, some q.fresh, q.fresh + 1⟩,
            by simp [LinkedQueue.enqueue, hf, hr], ?_⟩
          refine ⟨[f, q.fresh], ?_, ?_, rfl, ?_⟩
          · exact chainB_extend q.heap q.fresh f item hfr [f] (some f) hch (by simp) rfl
          · simp [List.nodup_cons, Nat.ne_of_lt hf_lt]
          · intro p hp
            exact hmodify_keys (fun a => a < q.fresh + 1) f _ _ hbase p hp
        · refine ⟨⟨q.heap, none, none, q.fresh⟩, none, by simp [LinkedQueue.dequeue, hf, hr],
            ⟨[], rfl, List.nodup_nil, rfl, hfr⟩⟩
        · intro ids' hch'
          have hdet : ids' = [f] := chainB_det q.heap ids' [f] (some f) hch' hch
          subst hdet
          constructor
          · exact iff_of_true ⟨f, rfl, hr⟩ rfl
          · refine iff_of_false ?_ (by simp)
            rintro ⟨h1, -⟩
            simp at h1
        · rintro ⟨h1, -⟩
          simp at h1
        · intro ids' hch' hlen
          exact ⟨⟨q.heap, none, none, q.fresh⟩, by simp [LinkedQueue.dequeue, hf, hr],
            rfl, rfl⟩
      | cons k rest2 =>
        obtain ⟨r, hlast⟩ := lastOpt_cons_some rest2 k
        have hr : q.rear = some r := by rw [hrear, lastOpt_cons_cons, hlast]
        have hrm : r ∈ k :: rest2 := lastOpt_mem _ hlast
        have hfnotin : f ∉ k :: rest2 := (List.nodup_cons.mp hnd).1
        have hfr_ne : f ≠ r := fun he => hfnotin (he ▸ hrm)
        refine ⟨?_, ?_, ?_, ?_, ?_⟩
        · refine ⟨⟨hmodify ((q.fresh, SNode.mk item none) :: q.heap) r
              (fun m => SNode.mk m.info (some q.fresh)), some f, some q.fresh, q.fresh + 1⟩,
            by simp [LinkedQueue.enqueue, hf, hr], ?_⟩
          refine ⟨(f :: k :: rest2) ++ [q.fresh], ?_, ?_, ?_, ?_⟩
          · exact chainB_extend q.heap q.fresh r item hfr (f :: k :: rest2) (some f) hch hnd
              (by rw [lastOpt_cons_cons]; exact hlast)
          · rw [List.nodup_append]
            refine ⟨hnd, by simp, ?_⟩
            intro a ha hb
            simp only [List.mem_singleton] at hb
            subst hb
            exact absurd (hid_lt _ ha) (lt_irrefl _)
          · rw [lastOpt_append_single]
          · intro p hp
            exact hmodify_keys (fun a => a < q.fresh + 1) r _ _ hbase p hp
        · refine ⟨⟨hremove q.heap f, n.link, q.rear, q.fresh⟩, none,
            by simp [LinkedQueue.dequeue, hf, hr, hfr_ne, hn], ?_⟩
          refine ⟨k :: rest2, ?_, (List.nodup_cons.mp hnd).2, ?_, ?_⟩
          · exact chainB_hremove q.heap f (k :: rest2) n.link hrest hfnotin
          · rw [hrear, lastOpt_cons_cons]
          · intro p hp
            exact hfr p (hremove_subset f q.heap p hp)
        · intro ids' hch'
          have hdet : ids' = f :: k :: rest2 := chainB_det q.heap ids' _ (some f) hch' hch
          subst hdet
          constructor
          · refine iff_of_false ?_ (by simp)
            rintro ⟨x, hx, hrx⟩
            rw [hr] at hrx
            exact hfr_ne ((Option.some.inj hx).trans (Option.some.inj hrx).symm)
          · refine iff_of_false ?_ (by simp)
            rintro ⟨h1, -⟩
            simp at h1
        · rintro ⟨h1, -⟩
          simp at h1
        · intro ids' hch' hlen
          have hdet : ids' = f :: k :: rest2 := chainB_det q.heap ids' _ (some f) hch' hch
          subst hdet
          simp [List.length_cons] at hlen

/-- Witness for C9 at the empty queue with item 5. -/
theorem queue_bracket_invariant_witness :
    (∃ qe, LinkedQueue.enqueue LinkedQueue.emptyQueue 5 = some qe ∧ LinkedQueue.wfQ qe) ∧
    (∃ qd sig, LinkedQueue.dequeue LinkedQueue.emptyQueue = some (qd, sig) ∧
      LinkedQueue.wfQ qd) ∧
    (∀ ids, LinkedQueue.chainB LinkedQueue.emptyQueue.heap LinkedQueue.emptyQueue.front ids =
        true →
      (((∃ x, LinkedQueue.emptyQueue.front = some x ∧ LinkedQueue.emptyQueue.rear = some x) ↔
          ids.length = 1) ∧
        ((LinkedQueue.emptyQueue.front = none ∧ LinkedQueue.emptyQueue.rear = none) ↔
          ids = []))) ∧
    ((LinkedQueue.emptyQueue.front = none ∧ LinkedQueue.emptyQueue.rear = none) →
      LinkedQueue.enqueue LinkedQueue.emptyQueue 5 =
        some ⟨(LinkedQueue.emptyQueue.fresh, SNode.mk 5 none) :: LinkedQueue.emptyQueue.heap,
          some LinkedQueue.emptyQueue.fresh, some LinkedQueue.emptyQueue.fresh,
          LinkedQueue.emptyQueue.fresh + 1⟩) ∧
    (∀ ids, LinkedQueue.chainB LinkedQueue.emptyQueue.heap LinkedQueue.emptyQueue.front ids =
        true → ids.length = 1 →
      ∃ qd, LinkedQueue.dequeue LinkedQueue.emptyQueue = some (qd, none) ∧
        qd.front = none ∧ qd.rear = none) :=
  queue_bracket_invariant LinkedQueue.emptyQueue 5
    ⟨[], rfl, List.nodup_nil, rfl, fun p hp => absurd hp (List.not_mem_nil p)⟩
